import Mathlib

/-!
Shallow embedding of the search retrieval pipeline of `src/search_bridge.py`.

Modelling conventions:
* Python strings are `List Char` (`Str`); `str.lower()` is ASCII lowering
  (Python's full-Unicode lowering restricted to the ASCII range used here),
  `str.split()` splits on whitespace runs, `str.replace` replaces all
  non-overlapping occurrences left to right, `in` on strings is substring test.
* Python floats in the scoring function (2.0, 1.0, 3.0, 0.5) are exactly
  representable; scores are stored doubled (4, 2, 6, 1 : Int) so that all
  arithmetic stays in `Int`.  Doubling is strictly monotone, so comparisons and
  the sort order are unchanged.
* `time.time()` timestamps and the TTL are modelled as `Int`.
* The sqlite table keyed by the primary key `cache_key` is an association list
  of rows; `INSERT OR REPLACE` replaces the row with the same key, `DELETE`
  removes it.  The md5 digest of the key data is modelled by the key data
  string itself (md5 is treated as injective).
* The remote provider (`_perform_search`, i.e. requests + response parsing) is
  an oracle `fetch : Str → Nat → Except Unit (List WebResult)`; a `.error`
  value is an exception escaping `_perform_search` (timeout, HTTP error,
  malformed body).  sqlite faults are oracle booleans `getFault` / `setFault`.
* Python's `list.sort(key=..., reverse=True)` is the stable descending
  reordering; it is embedded as `List.insertionSort` with the relation
  "score of the left argument is at least the score of the right one", which
  produces exactly that stable descending order.
-/

namespace SearchBridge

abbrev Str := List Char

/-- ASCII lowering of one character, as Python's `str.lower` acts on ASCII. -/
def lowerChar (c : Char) : Char :=
  if 65 ≤ c.toNat ∧ c.toNat ≤ 90 then Char.ofNat (c.toNat + 32) else c

/-- Python `s.lower()`. -/
def lower (s : Str) : Str := s.map lowerChar

/-- Whitespace characters recognised by Python's `str.split()`/`str.strip()`. -/
def isWs (c : Char) : Bool := c = ' ' || c = '\t' || c = '\n' || c = '\r'

/-- Helper for `splitWs`: accumulates the current word (reversed). -/
def splitWsAux : Str → Str → List Str
  | [], acc => if acc.isEmpty then [] else [acc.reverse]
  | c :: cs, acc =>
    if isWs c then (if acc.isEmpty then splitWsAux cs [] else acc.reverse :: splitWsAux cs [])
    else splitWsAux cs (c :: acc)

/-- Python `s.split()`: split on whitespace runs, dropping empty words. -/
def splitWs (s : Str) : List Str := splitWsAux s []

/-- Python `p in s` for strings: substring containment. -/
def containsSub (p : Str) : Str → Bool
  | [] => p.isEmpty
  | c :: cs => p.isPrefixOf (c :: cs) || containsSub p cs

/-- Fuelled version of Python `s.replace(p, r)`; the fuel makes the
recursion structural so that concrete inputs evaluate by `decide`.  The fuel
is always at least `s.length`, so the `0, s` fallback is unreachable. -/
def replaceF (p r : Str) : Nat → Str → Str
  | _, [] => []
  | 0, c :: cs => c :: cs
  | fuel + 1, c :: cs =>
    if p ≠ [] ∧ p.isPrefixOf (c :: cs) then r ++ replaceF p r fuel ((c :: cs).drop p.length)
    else c :: replaceF p r fuel cs

/-- Python `s.replace(p, r)`: replace all non-overlapping occurrences of `p`
left to right, never rescanning the replacement text. -/
def replace (p r s : Str) : Str := replaceF p r s.length s

/-- Python `s.strip()`. -/
def stripL (s : Str) : Str := ((s.dropWhile isWs).reverse.dropWhile isWs).reverse

/-- The `WebResult` dataclass of `search_bridge.py`. -/
structure WebResult where
  title : Str
  url : Str
  description : Str
deriving DecidableEq

/-- The fixed typo-correction table of `enrich_query`. -/
def typos : List (Str × Str) :=
  [("teh".data, "the".data), ("recieve".data, "receive".data),
   ("seperate".data, "separate".data), ("occured".data, "occurred".data),
   ("neccessary".data, "necessary".data)]

/-- The fixed synonym table of `enrich_query`. -/
def synonyms : List (Str × List Str) :=
  [("fast".data, ["quick".data, "rapid".data]), ("big".data, ["large".data, "huge".data]),
   ("good".data, ["great".data, "excellent".data]), ("bad".data, ["poor".data, "terrible".data])]

/-- One iteration of the typo-correction loop of `enrich_query`. -/
def addTypo (query : Str) (acc : List Str) (tc : Str × Str) : List Str :=
  if containsSub tc.1 (lower query) then
    let corrected := replace tc.1 tc.2 (lower query)
    if corrected ∈ acc then acc else acc ++ [corrected]
  else acc

/-- One iteration of the inner synonym loop of `enrich_query`. -/
def addSynOne (query : Str) (word : Str) (acc : List Str) (syn : Str) : List Str :=
  if acc.length < 3 then
    let variant := replace word syn (lower query)
    if variant ∈ acc then acc else acc ++ [variant]
  else acc

/-- One iteration of the outer synonym loop of `enrich_query`. -/
def addSyn (query : Str) (acc : List Str) (ws : Str × List Str) : List Str :=
  if containsSub ws.1 (lower query) ∧ acc.length < 3 then ws.2.foldl (addSynOne query ws.1) acc
  else acc

/-- The `enrich_query` function; the `ENABLE_ENRICHMENT` global is passed as
the explicit parameter `enrichment_enabled`. -/
def enrich_query (enrichment_enabled : Bool) (query : Str) : List Str :=
  if enrichment_enabled = false then [query]
  else (synonyms.foldl (addSyn query) (typos.foldl (addTypo query) [query])).take 3

/-- The nested `calculate_score` function of `rerank_results`, with all scores
doubled so they stay integral (source floats: +2.0 per title term match,
+1.0 per text term match, +3.0 phrase bonus, -0.5 short-description penalty).
`set(query.lower().split())` is the deduplicated term list. -/
def calculate_score (query : Str) (result : WebResult) : Int :=
  let text := lower (result.title ++ [' '] ++ result.description)
  let text_terms := splitWs text
  let title_terms := splitWs (lower result.title)
  let query_terms := (splitWs (lower query)).dedup
  let sTitle := query_terms.foldl (fun sc term => if term ∈ title_terms then sc + 4 else sc) 0
  let sText := query_terms.foldl (fun sc term => if term ∈ text_terms then sc + 2 else sc) sTitle
  let sPhrase := if containsSub (lower query) text then sText + 6 else sText
  if result.description.length < 50 then sPhrase - 1 else sPhrase

/-- The scoring formula exactly as the specification words it (claim C3),
likewise doubled: 2.0·|{t ∈ Q : t ∈ T}| + 1.0·|{t ∈ Q : t ∈ D}| + 3.0·phrase
- 0.5·short, with Q the set of query terms, T the title terms and D the terms
of title-plus-description. -/
def spec_score (query : Str) (result : WebResult) : Int :=
  let Q := (splitWs (lower query)).dedup
  let T := splitWs (lower result.title)
  let text := lower (result.title ++ [' '] ++ result.description)
  let D := splitWs text
  4 * ((Q.filter (fun t => decide (t ∈ T))).length : Int)
    + 2 * ((Q.filter (fun t => decide (t ∈ D))).length : Int)
    + (if containsSub (lower query) text then 6 else 0)
    - (if result.description.length < 50 then 1 else 0)

/-- Descending-by-score ordering used by `scored_results.sort(key=..., reverse=True)`. -/
def scoreGe (query : Str) (a b : WebResult) : Prop :=
  calculate_score query b ≤ calculate_score query a

instance (query : Str) : DecidableRel (scoreGe query) := fun a b =>
  inferInstanceAs (Decidable (calculate_score query b ≤ calculate_score query a))

/-- The `rerank_results` function; the `ENABLE_RERANK` global is the explicit
parameter `reranking_enabled`.  Python's stable descending sort is embedded as
insertion sort with `scoreGe` (see the header comment). -/
def rerank_results (reranking_enabled : Bool) (query : Str) (results : List WebResult) :
    List WebResult :=
  if reranking_enabled = false ∨ results.length ≤ 1 then results
  else List.insertionSort (scoreGe query) results

/-- The deduplication loop of `BraveSearchProvider.search` (lines 266-274):
walk the accumulated results, skip urls already seen, append fresh ones, and
break as soon as `count` unique results have been appended (the length test
runs after the append).  `seen` holds the urls appended so far. -/
def dedupAccum (count : Nat) : List WebResult → List Str → List WebResult
  | [], _ => []
  | r :: rs, seen =>
    if r.url ∈ seen then dedupAccum count rs seen
    else if count ≤ seen.length + 1 then [r]
    else r :: dedupAccum count rs (r.url :: seen)

/-- The ResultAggregator of the specification: concatenate the per-variant
lists in order and run the deduplication loop with the requested limit. -/
def aggregate (lists : List (List WebResult)) (limit : Nat) : List WebResult :=
  dedupAccum limit lists.flatten []

/-- One row of the sqlite `search_cache` table (the observability columns
`query`, `count` and the flags play no role in any claim and are omitted;
lookups go through `cache_key` alone, as in the SQL). -/
structure CacheRow where
  cache_key : Str
  results : List WebResult
  created_at : Int
deriving DecidableEq

abbrev CacheDB := List CacheRow

/-- Python `str(b)` for booleans, as interpolated into the key data. -/
def boolStr (b : Bool) : Str := if b then "True".data else "False".data

/-- Decimal rendering of the requested count, as interpolated into the key data. -/
def natStr (n : Nat) : Str := (Nat.repr n).data

/-- The `_generate_cache_key` method: the md5 digest of
`f"{query.lower().strip()}:{count}:{e}:{r}"` is modelled by the key data
itself (md5 treated as injective). -/
def generate_cache_key (query : Str) (count : Nat) (e r : Bool) : Str :=
  stripL (lower query) ++ [':'] ++ natStr count ++ [':'] ++ boolStr e ++ [':'] ++ boolStr r

/-- SELECT by primary key. -/
def lookupRow (db : CacheDB) (k : Str) : Option CacheRow :=
  db.find? (fun row => row.cache_key == k)

/-- DELETE FROM search_cache WHERE cache_key = k. -/
def eraseKey (db : CacheDB) (k : Str) : CacheDB :=
  db.filter (fun row => !(row.cache_key == k))

def sqliteBackend : Str := "sqlite".data

/-- Body of the `try` block of `SearchCache.get`: may raise (sqlite fault),
otherwise looks the row up, returns it while fresh, deletes it when stale. -/
def cacheGetRaw (ttl : Int) (db : CacheDB) (fault : Bool) (now : Int) (key : Str) :
    Except Unit (Option (List WebResult) × CacheDB) :=
  if fault then Except.error ()
  else Except.ok (match lookupRow db key with
    | some row =>
      if now - row.created_at < ttl then (some row.results, db) else (none, eraseKey db key)
    | none => (none, db))

/-- The `SearchCache.get` method: backend check outside the `try`, then the
raw lookup with the `except` clause returning `None` and leaving the store
unchanged. -/
def SearchCache.get (backend : Str) (ttl : Int) (db : CacheDB) (fault : Bool) (now : Int)
    (query : Str) (count : Nat) (e r : Bool) : Option (List WebResult) × CacheDB :=
  if backend ≠ sqliteBackend then (none, db)
  else
    match cacheGetRaw ttl db fault now (generate_cache_key query count e r) with
    | Except.error _ => (none, db)
    | Except.ok v => v

/-- Body of the `try` block of `SearchCache.set`: may raise (sqlite fault),
otherwise INSERT OR REPLACE the row keyed by `key` with `created_at = now`. -/
def cacheSetRaw (db : CacheDB) (fault : Bool) (now : Int) (key : Str)
    (results : List WebResult) : Except Unit CacheDB :=
  if fault then Except.error () else Except.ok (⟨key, results, now⟩ :: eraseKey db key)

/-- The `SearchCache.set` method: backend check, then the raw upsert with the
`except` clause leaving the store unchanged. -/
def SearchCache.set (backend : Str) (db : CacheDB) (fault : Bool) (now : Int) (query : Str)
    (count : Nat) (e r : Bool) (results : List WebResult) : CacheDB :=
  if backend ≠ sqliteBackend then db
  else
    match cacheSetRaw db fault now (generate_cache_key query count e r) results with
    | Except.error _ => db
    | Except.ok db2 => db2

/-- The per-variant fetch loop of `BraveSearchProvider.search` (lines 255-264):
one `_perform_search` call per variant inside `try`, `except` logs and
continues; breaks once the raw accumulated length reaches `count`.  Returns
the accumulated results and the number of `_perform_search` invocations. -/
def fetchLoop (fetch : Str → Nat → Except Unit (List WebResult)) (count : Nat) :
    List Str → List WebResult → List WebResult × Nat
  | [], acc => (acc, 0)
  | v :: vs, acc =>
    match fetch v count with
    | Except.ok rs =>
      let acc2 := acc ++ rs
      if count ≤ acc2.length then (acc2, 1)
      else
        let p := fetchLoop fetch count vs acc2
        (p.1, p.2 + 1)
    | Except.error _ =>
      let p := fetchLoop fetch count vs acc
      (p.1, p.2 + 1)

/-- Ambient state and configuration of one `BraveSearchProvider.search` call:
the environment-derived globals, the provider oracle, the sqlite fault
oracles, and the current wall-clock time. -/
structure Env where
  apiKey : Str
  fetch : Str → Nat → Except Unit (List WebResult)
  backend : Str
  ttl : Int
  enrichment_enabled : Bool
  reranking_enabled : Bool
  getFault : Bool
  setFault : Bool
  now : Int

/-- Observable outcome of one `search` call: the returned list, the cache
store afterwards, how many `_perform_search` calls were made, and whether the
return came from the cache-hit branch. -/
structure SearchOutcome where
  results : List WebResult
  db : CacheDB
  providerCalls : Nat
  fromCache : Bool
deriving DecidableEq

/-- The cache-miss tail of `BraveSearchProvider.search`: enrichment, fan-out,
deduplication, optional reranking, cache write, and the `[:count]` trim of the
returned list. -/
def missPath (env : Env) (db1 : CacheDB) (query : Str) (count : Nat) : SearchOutcome :=
  let variants := enrich_query env.enrichment_enabled query
  let p := fetchLoop env.fetch count variants []
  let unique := dedupAccum count p.1 []
  let final := if 1 < unique.length then rerank_results env.reranking_enabled query unique
    else unique
  let db2 := SearchCache.set env.backend db1 env.setFault env.now query count
    env.enrichment_enabled env.reranking_enabled final
  ⟨final.take count, db2, p.2, false⟩

/-- The `BraveSearchProvider.search` method.  `if cached_results:` is a Python
truthiness test, so both an absent entry and a cached empty list fall through
to the miss path. -/
def BraveSearchProvider.search (env : Env) (db : CacheDB) (query : Str) (count : Nat) :
    SearchOutcome :=
  if env.apiKey = [] then ⟨[], db, 0, false⟩
  else
    match SearchCache.get env.backend env.ttl db env.getFault env.now query count
        env.enrichment_enabled env.reranking_enabled with
    | (some cached, db1) =>
      if cached.isEmpty then missPath env db1 query count else ⟨cached, db1, 0, true⟩
    | (none, db1) => missPath env db1 query count

/-- The `_should_retry` method: retryable iff the error carries a response
whose status is ≥ 500 or equals 429 (`none` models an error without a
`response` attribute).  `BraveSearchProvider.search` never calls it. -/
def should_retry (responseStatus : Option Nat) : Bool :=
  match responseStatus with
  | some s => decide (500 ≤ s) || decide (s = 429)
  | none => false

/-- Default `RETRY_ATTEMPTS` environment value (`self.max_retries`). -/
def RETRY_ATTEMPTS : Nat := 2

/-- Default `CACHE_TTL_SECONDS` environment value. -/
def CACHE_TTL_SECONDS : Int := 600

/-- Exception-level rendering of `SearchCache.get`: the raw sqlite access may
throw, the handler is the `except` clause of the method. -/
def SearchCacheE.get (backend : Str) (ttl : Int) (db : CacheDB) (fault : Bool) (now : Int)
    (query : Str) (count : Nat) (e r : Bool) :
    Except Unit (Option (List WebResult) × CacheDB) :=
  if backend ≠ sqliteBackend then pure (none, db)
  else tryCatch (cacheGetRaw ttl db fault now (generate_cache_key query count e r))
    (fun _ => pure (none, db))

/-- Exception-level rendering of `SearchCache.set`. -/
def SearchCacheE.set (backend : Str) (db : CacheDB) (fault : Bool) (now : Int) (query : Str)
    (count : Nat) (e r : Bool) (results : List WebResult) : Except Unit CacheDB :=
  if backend ≠ sqliteBackend then pure db
  else tryCatch (cacheSetRaw db fault now (generate_cache_key query count e r) results)
    (fun _ => pure db)

/-- Exception-level rendering of the per-variant fetch loop: the provider call
may throw; the `try`/`except` of one loop iteration wraps exactly that call
and continues with the next variant on failure. -/
def fetchLoopE (fetch : Str → Nat → Except Unit (List WebResult)) (count : Nat) :
    List Str → List WebResult → Except Unit (List WebResult × Nat)
  | [], acc => pure (acc, 0)
  | v :: vs, acc => do
    let attempt ← tryCatch (do
        let rs ← fetch v count
        pure (some rs))
      (fun _ => pure none)
    match attempt with
    | some rs =>
      let acc2 := acc ++ rs
      if count ≤ acc2.length then pure (acc2, 1)
      else do
        let p ← fetchLoopE fetch count vs acc2
        pure (p.1, p.2 + 1)
    | none => do
      let p ← fetchLoopE fetch count vs acc
      pure (p.1, p.2 + 1)

/-- Exception-level rendering of the cache-miss tail of `search`. -/
def missPathE (env : Env) (db1 : CacheDB) (query : Str) (count : Nat) :
    Except Unit SearchOutcome := do
  let variants := enrich_query env.enrichment_enabled query
  let p ← fetchLoopE env.fetch count variants []
  let unique := dedupAccum count p.1 []
  let final := if 1 < unique.length then rerank_results env.reranking_enabled query unique
    else unique
  let db2 ← SearchCacheE.set env.backend db1 env.setFault env.now query count
    env.enrichment_enabled env.reranking_enabled final
  pure ⟨final.take count, db2, p.2, false⟩

/-- Exception-level rendering of `BraveSearchProvider.search`: every fallible
primitive (`cacheGetRaw`, the provider call, `cacheSetRaw`) may throw, and
each handler sits exactly where the source has an `except` clause.  An
`Except.error` escaping this definition would be an exception propagating to
the caller of `search`. -/
def searchE (env : Env) (db : CacheDB) (query : Str) (count : Nat) :
    Except Unit SearchOutcome := do
  if env.apiKey = [] then return ⟨[], db, 0, false⟩
  let g ← SearchCacheE.get env.backend env.ttl db env.getFault env.now query count
    env.enrichment_enabled env.reranking_enabled
  match g with
  | (some cached, db1) =>
    if cached.isEmpty then missPathE env db1 query count else return ⟨cached, db1, 0, true⟩
  | (none, db1) => missPathE env db1 query count

/-- A character set is `LowerFixed` when Python lowering leaves every
character unchanged. -/
def LowerFixed (s : Str) : Prop := ∀ c ∈ s, lowerChar c = c

instance (s : Str) : Decidable (LowerFixed s) :=
  inferInstanceAs (Decidable (∀ c ∈ s, lowerChar c = c))

/-- A replacement pair never fixes a string containing the pattern:
`s.replace(p, r) != s` whenever `p in s`.  Holds for every entry of the typo
and synonym tables. -/
def NoFixPair (p r : Str) : Prop :=
  ∀ s : Str, containsSub p s = true → replace p r s ≠ s

/-- Accumulator invariant of the `enrich_query` loops: the original query is
the head, every appended variant is a fully lowered string, and no two
entries agree after lowering. -/
def GoodAcc (query : Str) (acc : List Str) : Prop :=
  (∃ vs, acc = query :: vs ∧ ∀ v ∈ vs, lower v = v) ∧
    acc.Pairwise (fun a b => lower a ≠ lower b)

instance (query : Str) : IsTotal WebResult (scoreGe query) :=
  ⟨fun a b => le_total (calculate_score query b) (calculate_score query a)⟩

instance (query : Str) : IsTrans WebResult (scoreGe query) :=
  ⟨fun _ _ _ hab hbc => le_trans hbc hab⟩

/-- First result of the reranking test fixture of the spec (`u1`). -/
def gRes : WebResult := ⟨"Generic Title".data, "u1".data, "Generic description".data⟩

/-- Second result of the reranking test fixture of the spec (`u2`). -/
def tRes : WebResult := ⟨"Test Title".data, "u2".data, "Test description with test word".data⟩

/-- Environment with valid credentials, default configuration, a healthy
cache, and a provider whose every call raises (e.g. times out). -/
def timeoutEnv : Env :=
  ⟨"k".data, fun _ _ => Except.error (), sqliteBackend, CACHE_TTL_SECONDS,
   true, true, false, false, 0⟩

/-! ### Lemmas about the string primitives -/

theorem lowerChar_idem (c : Char) : lowerChar (lowerChar c) = lowerChar c := by
  by_cases h : 65 ≤ c.toNat ∧ c.toNat ≤ 90
  · have hv : (c.toNat + 32).isValidChar := Or.inl (by omega)
    have ht : (Char.ofNat (c.toNat + 32)).toNat = c.toNat + 32 := by
      rw [Char.ofNat, dif_pos hv]
      rfl
    have hin : lowerChar c = Char.ofNat (c.toNat + 32) := by
      simp only [lowerChar, if_pos h]
    have hc : ¬(65 ≤ (Char.ofNat (c.toNat + 32)).toNat ∧ (Char.ofNat (c.toNat + 32)).toNat ≤ 90) := by
      rw [ht]
      omega
    rw [hin]
    simp only [lowerChar, if_neg hc]
  · have hin : lowerChar c = c := by simp only [lowerChar, if_neg h]
    rw [hin]
    exact hin

theorem lowerFixed_lower (s : Str) : LowerFixed (lower s) := by
  intro c hc
  simp only [lower, List.mem_map] at hc
  obtain ⟨a, _, rfl⟩ := hc
  exact lowerChar_idem a

theorem lower_eq_self : ∀ s : Str, LowerFixed s → lower s = s
  | [], _ => rfl
  | c :: cs, h => by
    have htail := lower_eq_self cs (fun x hx => h x (List.mem_cons_of_mem c hx))
    simp only [lower, List.map_cons] at htail ⊢
    rw [h c (List.mem_cons_self c cs), htail]

theorem mem_replaceF (p r : Str) :
    ∀ (fuel : Nat) (s : Str) (c : Char), c ∈ replaceF p r fuel s → c ∈ s ∨ c ∈ r
  | 0, [], c, h => by simp [replaceF] at h
  | fuel + 1, [], c, h => by simp [replaceF] at h
  | 0, x :: xs, c, h => by
    simp only [replaceF] at h
    exact Or.inl h
  | fuel + 1, x :: xs, c, h => by
    simp only [replaceF] at h
    by_cases hp : p ≠ [] ∧ p.isPrefixOf (x :: xs)
    · rw [if_pos hp] at h
      rcases List.mem_append.mp h with hr | hrec
      · exact Or.inr hr
      · rcases mem_replaceF p r fuel ((x :: xs).drop p.length) c hrec with hs | hr
        · exact Or.inl (List.drop_subset _ _ hs)
        · exact Or.inr hr
    · rw [if_neg hp] at h
      rcases List.mem_cons.mp h with rfl | hrec
      · exact Or.inl (List.mem_cons_self _ _)
      · rcases mem_replaceF p r fuel xs c hrec with hs | hr
        · exact Or.inl (List.mem_cons_of_mem _ hs)
        · exact Or.inr hr

theorem lowerFixed_replaceF (p r : Str) (fuel : Nat) (s : Str) (hs : LowerFixed s)
    (hr : LowerFixed r) : LowerFixed (replaceF p r fuel s) := by
  intro c hc
  rcases mem_replaceF p r fuel s c hc with h | h
  · exact hs c h
  · exact hr c h

theorem containsSub_nil_false (p : Str) (hp : p ≠ []) : containsSub p [] = false := by
  cases p with
  | nil => exact absurd rfl hp
  | cons a as => simp [containsSub]

theorem containsSub_tail (p : Str) (x : Char) (xs : Str) (hpre : ¬p.isPrefixOf (x :: xs) = true)
    (h : containsSub p (x :: xs) = true) : containsSub p xs = true := by
  simp only [containsSub, Bool.or_eq_true] at h
  rcases h with h | h
  · exact absurd h hpre
  · exact h

theorem replaceF_ne_of_same_length (p r : Str) (hp : p ≠ []) (hlen : p.length = r.length)
    (hne : p ≠ r) :
    ∀ (fuel : Nat) (s : Str), s.length ≤ fuel → containsSub p s = true →
      replaceF p r fuel s ≠ s
  | _, [], _, hcon => by
    rw [containsSub_nil_false p hp] at hcon
    exact absurd hcon (by simp)
  | 0, x :: xs, hle, _ => by simp at hle
  | fuel + 1, x :: xs, hle, hcon => by
    simp only [replaceF]
    by_cases hpre : p.isPrefixOf (x :: xs) = true
    · rw [if_pos ⟨hp, hpre⟩]
      intro heq
      obtain ⟨t, ht⟩ := List.isPrefixOf_iff_prefix.mp hpre
      rw [← ht] at heq
      rw [List.drop_left] at heq
      have hrp : r = p := (List.append_inj heq hlen.symm).1
      exact hne (hrp ▸ rfl)
    · rw [if_neg (fun hh => hpre hh.2)]
      intro heq
      have htail : replaceF p r fuel xs = xs := by
        simpa using heq
      have hcon2 := containsSub_tail p x xs hpre hcon
      have hle2 : xs.length ≤ fuel := by
        simp only [List.length_cons] at hle
        omega
      exact replaceF_ne_of_same_length p r hp hlen hne fuel xs hle2 hcon2 htail

theorem replaceF_length_ge (p r : Str) (h : p.length ≤ r.length) :
    ∀ (fuel : Nat) (s : Str), s.length ≤ fuel → s.length ≤ (replaceF p r fuel s).length
  | _, [], _ => by simp [replaceF]
  | 0, x :: xs, hle => by simp at hle
  | fuel + 1, x :: xs, hle => by
    simp only [replaceF]
    by_cases hpre : p ≠ [] ∧ p.isPrefixOf (x :: xs)
    · rw [if_pos hpre]
      have hplen : p.length ≤ (x :: xs).length :=
        (List.isPrefixOf_iff_prefix.mp hpre.2).length_le
      have hppos : 1 ≤ p.length := List.length_pos.mpr hpre.1
      have hle2 : ((x :: xs).drop p.length).length ≤ fuel := by
        simp only [List.length_drop, List.length_cons] at hle ⊢
        omega
      have hrec := replaceF_length_ge p r h fuel ((x :: xs).drop p.length) hle2
      simp only [List.length_append, List.length_drop, List.length_cons] at hrec ⊢
      omega
    · rw [if_neg hpre]
      have hle2 : xs.length ≤ fuel := by
        simp only [List.length_cons] at hle
        omega
      have hrec := replaceF_length_ge p r h fuel xs hle2
      simp only [List.length_cons]
      omega

theorem replaceF_length_gt (p r : Str) (hp : p ≠ []) (h : p.length < r.length) :
    ∀ (fuel : Nat) (s : Str), s.length ≤ fuel → containsSub p s = true →
      s.length < (replaceF p r fuel s).length
  | _, [], _, hcon => by
    rw [containsSub_nil_false p hp] at hcon
    exact absurd hcon (by simp)
  | 0, x :: xs, hle, _ => by simp at hle
  | fuel + 1, x :: xs, hle, hcon => by
    simp only [replaceF]
    by_cases hpre : p.isPrefixOf (x :: xs) = true
    · rw [if_pos ⟨hp, hpre⟩]
      have hplen : p.length ≤ (x :: xs).length :=
        (List.isPrefixOf_iff_prefix.mp hpre).length_le
      have hppos : 1 ≤ p.length := List.length_pos.mpr hp
      have hle2 : ((x :: xs).drop p.length).length ≤ fuel := by
        simp only [List.length_drop, List.length_cons] at hle ⊢
        omega
      have hrec := replaceF_length_ge p r (le_of_lt h) fuel ((x :: xs).drop p.length) hle2
      simp only [List.length_append, List.length_drop, List.length_cons] at hrec ⊢
      omega
    · rw [if_neg (fun hh => hpre hh.2)]
      have hcon2 := containsSub_tail p x xs hpre hcon
      have hle2 : xs.length ≤ fuel := by
        simp only [List.length_cons] at hle
        omega
      have hrec := replaceF_length_gt p r hp h fuel xs hle2 hcon2
      simp only [List.length_cons]
      omega

theorem replaceF_length_le (p r : Str) (h : r.length ≤ p.length) :
    ∀ (fuel : Nat) (s : Str), s.length ≤ fuel → (replaceF p r fuel s).length ≤ s.length
  | _, [], _ => by simp [replaceF]
  | 0, x :: xs, hle => by simp at hle
  | fuel + 1, x :: xs, hle => by
    simp only [replaceF]
    by_cases hpre : p ≠ [] ∧ p.isPrefixOf (x :: xs)
    · rw [if_pos hpre]
      have hplen : p.length ≤ (x :: xs).length :=
        (List.isPrefixOf_iff_prefix.mp hpre.2).length_le
      have hppos : 1 ≤ p.length := List.length_pos.mpr hpre.1
      have hle2 : ((x :: xs).drop p.length).length ≤ fuel := by
        simp only [List.length_drop, List.length_cons] at hle ⊢
        omega
      have hrec := replaceF_length_le p r h fuel ((x :: xs).drop p.length) hle2
      calc (r ++ replaceF p r fuel ((x :: xs).drop p.length)).length
          = r.length + (replaceF p r fuel ((x :: xs).drop p.length)).length := by
            rw [List.length_append]
        _ ≤ r.length + ((x :: xs).drop p.length).length := Nat.add_le_add_left hrec r.length
        _ = r.length + ((x :: xs).length - p.length) := by rw [List.length_drop]
        _ ≤ p.length + ((x :: xs).length - p.length) := Nat.add_le_add_right h _
        _ ≤ (x :: xs).length := by omega
    · rw [if_neg hpre]
      have hle2 : xs.length ≤ fuel := by
        simp only [List.length_cons] at hle
        omega
      have hrec := replaceF_length_le p r h fuel xs hle2
      simp only [List.length_cons]
      omega

theorem replaceF_length_lt (p r : Str) (hp : p ≠ []) (h : r.length < p.length) :
    ∀ (fuel : Nat) (s : Str), s.length ≤ fuel → containsSub p s = true →
      (replaceF p r fuel s).length < s.length
  | _, [], _, hcon => by
    rw [containsSub_nil_false p hp] at hcon
    exact absurd hcon (by simp)
  | 0, x :: xs, hle, _ => by simp at hle
  | fuel + 1, x :: xs, hle, hcon => by
    simp only [replaceF]
    by_cases hpre : p.isPrefixOf (x :: xs) = true
    · rw [if_pos ⟨hp, hpre⟩]
      have hplen : p.length ≤ (x :: xs).length :=
        (List.isPrefixOf_iff_prefix.mp hpre).length_le
      have hppos : 1 ≤ p.length := List.length_pos.mpr hp
      have hle2 : ((x :: xs).drop p.length).length ≤ fuel := by
        simp only [List.length_drop, List.length_cons] at hle ⊢
        omega
      have hrec := replaceF_length_le p r (le_of_lt h) fuel ((x :: xs).drop p.length) hle2
      calc (r ++ replaceF p r fuel ((x :: xs).drop p.length)).length
          = r.length + (replaceF p r fuel ((x :: xs).drop p.length)).length := by
            rw [List.length_append]
        _ ≤ r.length + ((x :: xs).drop p.length).length := Nat.add_le_add_left hrec r.length
        _ = r.length + ((x :: xs).length - p.length) := by rw [List.length_drop]
        _ < p.length + ((x :: xs).length - p.length) := Nat.add_lt_add_right h _
        _ ≤ (x :: xs).length := by omega
    · rw [if_neg (fun hh => hpre hh.2)]
      have hcon2 := containsSub_tail p x xs hpre hcon
      have hle2 : xs.length ≤ fuel := by
        simp only [List.length_cons] at hle
        omega
      have hrec := replaceF_length_lt p r hp h fuel xs hle2 hcon2
      simp only [List.length_cons]
      omega

theorem noFixPair_same_length (p r : Str) (hp : p ≠ []) (hlen : p.length = r.length)
    (hne : p ≠ r) : NoFixPair p r :=
  fun s hcon => replaceF_ne_of_same_length p r hp hlen hne s.length s le_rfl hcon

theorem noFixPair_longer (p r : Str) (hp : p ≠ []) (h : p.length < r.length) : NoFixPair p r := by
  intro s hcon heq
  have hlt := replaceF_length_gt p r hp h s.length s le_rfl hcon
  simp only [replace] at heq
  rw [heq] at hlt
  exact lt_irrefl _ hlt

theorem noFixPair_shorter (p r : Str) (hp : p ≠ []) (h : r.length < p.length) : NoFixPair p r := by
  intro s hcon heq
  have hlt := replaceF_length_lt p r hp h s.length s le_rfl hcon
  simp only [replace] at heq
  rw [heq] at hlt
  exact lt_irrefl _ hlt

/-! ### Lemmas about query enrichment -/

theorem foldl_preserves {α β : Type} (P : α → Prop) (f : α → β → α) (l : List β)
    (h : ∀ acc b, b ∈ l → P acc → P (f acc b)) (acc : α) (hacc : P acc) :
    P (l.foldl f acc) := by
  induction l generalizing acc with
  | nil => exact hacc
  | cons x xs ih =>
    simp only [List.foldl_cons]
    exact ih (fun a b hb ha => h a b (List.mem_cons_of_mem x hb) ha) (f acc x)
      (h acc x (List.mem_cons_self x xs) hacc)

theorem goodAcc_append (q : Str) (acc : List Str) (v : Str) (hg : GoodAcc q acc)
    (hvfix : lower v = v) (hvne : v ≠ lower q) (hmem : v ∉ acc) : GoodAcc q (acc ++ [v]) := by
  obtain ⟨⟨vs, rfl, hvs⟩, hpair⟩ := hg
  constructor
  · refine ⟨vs ++ [v], by simp, ?_⟩
    intro x hx
    rcases List.mem_append.mp hx with h | h
    · exact hvs x h
    · simp only [List.mem_singleton] at h
      subst h
      exact hvfix
  · rw [List.pairwise_append]
    refine ⟨hpair, List.pairwise_singleton _ _, ?_⟩
    intro a ha b hb
    simp only [List.mem_singleton] at hb
    subst hb
    rcases List.mem_cons.mp ha with rfl | hamem
    · rw [hvfix]
      intro he
      exact hvne he.symm
    · rw [hvs a hamem, hvfix]
      intro he
      exact hmem (he ▸ ha)

theorem addTypo_good (q : Str) (acc : List Str) (tc : Str × Str) (hg : GoodAcc q acc)
    (hfix : LowerFixed tc.2) (hnf : NoFixPair tc.1 tc.2) : GoodAcc q (addTypo q acc tc) := by
  unfold addTypo
  by_cases hcon : containsSub tc.1 (lower q) = true
  · rw [if_pos hcon]
    by_cases hmem : replace tc.1 tc.2 (lower q) ∈ acc
    · rw [if_pos hmem]
      exact hg
    · rw [if_neg hmem]
      refine goodAcc_append q acc _ hg ?_ ?_ hmem
      · exact lower_eq_self _ (lowerFixed_replaceF tc.1 tc.2 _ _ (lowerFixed_lower q) hfix)
      · exact hnf (lower q) hcon
  · rw [if_neg hcon]
    exact hg

theorem addSynOne_good (q word syn : Str) (acc : List Str) (hg : GoodAcc q acc)
    (hcon : containsSub word (lower q) = true) (hfix : LowerFixed syn)
    (hnf : NoFixPair word syn) : GoodAcc q (addSynOne q word acc syn) := by
  unfold addSynOne
  by_cases hlen : acc.length < 3
  · rw [if_pos hlen]
    by_cases hmem : replace word syn (lower q) ∈ acc
    · rw [if_pos hmem]
      exact hg
    · rw [if_neg hmem]
      refine goodAcc_append q acc _ hg ?_ ?_ hmem
      · exact lower_eq_self _ (lowerFixed_replaceF word syn _ _ (lowerFixed_lower q) hfix)
      · exact hnf (lower q) hcon
  · rw [if_neg hlen]
    exact hg

theorem addSyn_good (q : Str) (acc : List Str) (ws : Str × List Str) (hg : GoodAcc q acc)
    (hfix : ∀ y ∈ ws.2, LowerFixed y) (hnf : ∀ y ∈ ws.2, NoFixPair ws.1 y) :
    GoodAcc q (addSyn q acc ws) := by
  unfold addSyn
  by_cases hcond : containsSub ws.1 (lower q) = true ∧ acc.length < 3
  · rw [if_pos hcond]
    refine foldl_preserves (GoodAcc q) (addSynOne q ws.1) ws.2 ?_ acc hg
    intro acc2 syn hsyn hacc2
    exact addSynOne_good q ws.1 syn acc2 hacc2 hcond.1 (hfix syn hsyn) (hnf syn hsyn)
  · rw [if_neg hcond]
    exact hg

theorem typos_cond : ∀ tc ∈ typos, LowerFixed tc.2 ∧ NoFixPair tc.1 tc.2 := by
  intro tc htc
  simp only [typos, List.mem_cons, List.not_mem_nil, or_false] at htc
  rcases htc with rfl | rfl | rfl | rfl | rfl
  · exact ⟨by decide, noFixPair_same_length _ _ (by decide) (by decide) (by decide)⟩
  · exact ⟨by decide, noFixPair_same_length _ _ (by decide) (by decide) (by decide)⟩
  · exact ⟨by decide, noFixPair_same_length _ _ (by decide) (by decide) (by decide)⟩
  · exact ⟨by decide, noFixPair_longer _ _ (by decide) (by decide)⟩
  · exact ⟨by decide, noFixPair_shorter _ _ (by decide) (by decide)⟩

theorem synonyms_cond : ∀ ws ∈ synonyms, ∀ y ∈ ws.2, LowerFixed y ∧ NoFixPair ws.1 y := by
  intro ws hws y hy
  simp only [synonyms, List.mem_cons, List.not_mem_nil, or_false] at hws
  rcases hws with rfl | rfl | rfl | rfl <;>
    simp only [List.mem_cons, List.not_mem_nil, or_false] at hy <;>
    rcases hy with rfl | rfl <;>
    exact ⟨by decide, noFixPair_longer _ _ (by decide) (by decide)⟩

theorem enrich_good (q : Str) :
    GoodAcc q (synonyms.foldl (addSyn q) (typos.foldl (addTypo q) [q])) := by
  have h0 : GoodAcc q [q] := ⟨⟨[], rfl, by simp⟩, List.pairwise_singleton _ _⟩
  have h1 : GoodAcc q (typos.foldl (addTypo q) [q]) :=
    foldl_preserves (GoodAcc q) (addTypo q) typos
      (fun acc tc htc hacc =>
        addTypo_good q acc tc hacc (typos_cond tc htc).1 (typos_cond tc htc).2) [q] h0
  exact foldl_preserves (GoodAcc q) (addSyn q) synonyms
    (fun acc ws hws hacc =>
      addSyn_good q acc ws hacc (fun y hy => (synonyms_cond ws hws y hy).1)
        (fun y hy => (synonyms_cond ws hws y hy).2)) _ h1

theorem enrich_cons (en : Bool) (q : Str) : ∃ t, enrich_query en q = q :: t := by
  unfold enrich_query
  by_cases hen : en = false
  · rw [if_pos hen]
    exact ⟨[], rfl⟩
  · rw [if_neg hen]
    obtain ⟨⟨vs, heq, _⟩, _⟩ := enrich_good q
    rw [heq]
    exact ⟨vs.take 2, by simp⟩

theorem enrich_pairwise (en : Bool) (q : Str) :
    (enrich_query en q).Pairwise (fun a b => lower a ≠ lower b) := by
  unfold enrich_query
  by_cases hen : en = false
  · rw [if_pos hen]
    exact List.pairwise_singleton _ _
  · rw [if_neg hen]
    exact (enrich_good q).2.sublist (List.take_sublist _ _)

/-! ### Lemmas about scoring and reranking -/

theorem foldl_indicator (T : List Str) (c : Int) :
    ∀ (l : List Str) (a : Int),
      l.foldl (fun sc t => if t ∈ T then sc + c else sc) a
        = a + c * ((l.filter (fun t => decide (t ∈ T))).length : Int)
  | [], a => by simp
  | x :: xs, a => by
    by_cases hx : x ∈ T
    · rw [List.foldl_cons, if_pos hx, foldl_indicator T c xs (a + c),
        List.filter_cons_of_pos (by simpa using hx), List.length_cons]
      push_cast
      ring
    · rw [List.foldl_cons, if_neg hx, foldl_indicator T c xs a,
        List.filter_cons_of_neg (by simpa using hx)]

theorem calculate_score_eq_spec (q : Str) (res : WebResult) :
    calculate_score q res = spec_score q res := by
  unfold calculate_score spec_score
  dsimp only
  rw [foldl_indicator, foldl_indicator]
  split_ifs <;> ring

theorem filter_orderedInsert {α : Type} (r : α → α → Prop) [DecidableRel r] (p : α → Bool)
    (x : α) :
    ∀ l : List α, (p x = true → ∀ y ∈ l, p y = true → r x y) →
      (l.orderedInsert r x).filter p = if p x then x :: l.filter p else l.filter p
  | [], _ => by
    cases hpx : p x <;> simp [List.orderedInsert, hpx]
  | y :: ys, h => by
    simp only [List.orderedInsert]
    by_cases hr : r x y
    · rw [if_pos hr]
      cases hpx : p x <;> simp [List.filter_cons, hpx]
    · rw [if_neg hr]
      have hrec := filter_orderedInsert r p x ys
        (fun hpx y2 hy2 hpy2 => h hpx y2 (List.mem_cons_of_mem y hy2) hpy2)
      cases hpx : p x with
      | true =>
        have hpy : p y = false := by
          cases hpy : p y
          · rfl
          · exact absurd (h hpx y (List.mem_cons_self y ys) hpy) hr
        simp only [hpx, if_pos rfl] at hrec ⊢
        simp [List.filter_cons, hpy, hrec]
      | false =>
        rw [if_neg (show ¬(p x = true) by simp [hpx])] at hrec
        rw [if_neg (show ¬(false = true) by simp)]
        cases hpy : p y <;> simp [List.filter_cons, hpy, hrec]

theorem filter_insertionSort {α : Type} (r : α → α → Prop) [DecidableRel r] (p : α → Bool)
    (h : ∀ x y, p x = true → p y = true → r x y) :
    ∀ l : List α, (l.insertionSort r).filter p = l.filter p
  | [] => rfl
  | x :: xs => by
    simp only [List.insertionSort]
    rw [filter_orderedInsert r p x (xs.insertionSort r) (fun hpx y _ hpy => h x y hpx hpy),
      filter_insertionSort r p h xs]
    cases hpx : p x <;> simp [List.filter_cons, hpx]

theorem rerank_perm (en : Bool) (q : Str) (rs : List WebResult) :
    (rerank_results en q rs).Perm rs := by
  unfold rerank_results
  split
  · exact List.Perm.refl rs
  · exact List.perm_insertionSort _ rs

theorem rerank_sorted (q : Str) (rs : List WebResult) :
    List.Sorted (scoreGe q) (rerank_results true q rs) := by
  unfold rerank_results
  by_cases hc : (true = false) ∨ rs.length ≤ 1
  · rw [if_pos hc]
    rcases hc with h | h
    · exact absurd h (by simp)
    · match rs, h with
      | [], _ => exact List.sorted_nil
      | [a], _ => exact List.sorted_singleton a
  · rw [if_neg hc]
    exact List.sorted_insertionSort (scoreGe q) rs

theorem rerank_filter_score (en : Bool) (q : Str) (rs : List WebResult) (s : Int) :
    (rerank_results en q rs).filter (fun y => decide (calculate_score q y = s))
      = rs.filter (fun y => decide (calculate_score q y = s)) := by
  unfold rerank_results
  split
  · rfl
  · refine filter_insertionSort (scoreGe q) _ ?_ rs
    intro x y hx hy
    simp only [decide_eq_true_eq] at hx hy
    unfold scoreGe
    rw [hx, hy]

/-! ### Lemmas about the deduplication loop -/

theorem dedupAccum_length (count : Nat) :
    ∀ (rs : List WebResult) (seen : List Str), seen.length < count →
      (dedupAccum count rs seen).length + seen.length ≤ count
  | [], seen, h => by
    simp only [dedupAccum, List.length_nil]
    omega
  | r :: rs, seen, h => by
    simp only [dedupAccum]
    by_cases h1 : r.url ∈ seen
    · rw [if_pos h1]
      exact dedupAccum_length count rs seen h
    · rw [if_neg h1]
      by_cases h2 : count ≤ seen.length + 1
      · rw [if_pos h2]
        simp only [List.length_singleton]
        omega
      · rw [if_neg h2]
        have hrec := dedupAccum_length count rs (r.url :: seen) (by simp only [List.length_cons]; omega)
        simp only [List.length_cons] at hrec ⊢
        omega

theorem dedupAccum_sublist (count : Nat) :
    ∀ (rs : List WebResult) (seen : List Str), List.Sublist (dedupAccum count rs seen) rs
  | [], _ => by simp [dedupAccum]
  | r :: rs, seen => by
    simp only [dedupAccum]
    by_cases h1 : r.url ∈ seen
    · rw [if_pos h1]
      exact (dedupAccum_sublist count rs seen).cons r
    · rw [if_neg h1]
      by_cases h2 : count ≤ seen.length + 1
      · rw [if_pos h2]
        exact (List.nil_sublist rs).cons₂ r
      · rw [if_neg h2]
        exact (dedupAccum_sublist count rs (r.url :: seen)).cons₂ r

theorem dedupAccum_urls (count : Nat) :
    ∀ (rs : List WebResult) (seen : List Str),
      (∀ x ∈ dedupAccum count rs seen, x.url ∉ seen) ∧
        (dedupAccum count rs seen).Pairwise (fun a b => a.url ≠ b.url)
  | [], seen => by simp [dedupAccum]
  | r :: rs, seen => by
    simp only [dedupAccum]
    by_cases h1 : r.url ∈ seen
    · rw [if_pos h1]
      exact dedupAccum_urls count rs seen
    · rw [if_neg h1]
      by_cases h2 : count ≤ seen.length + 1
      · rw [if_pos h2]
        refine ⟨?_, List.pairwise_singleton _ _⟩
        intro x hx
        simp only [List.mem_singleton] at hx
        subst hx
        exact h1
      · rw [if_neg h2]
        obtain ⟨hnotin, hpw⟩ := dedupAccum_urls count rs (r.url :: seen)
        constructor
        · intro x hx
          rcases List.mem_cons.mp hx with rfl | hx2
          · exact h1
          · exact fun hmem => hnotin x hx2 (List.mem_cons_of_mem _ hmem)
        · refine List.pairwise_cons.mpr ⟨?_, hpw⟩
          intro b hb he
          exact hnotin b hb (he ▸ List.mem_cons_self r.url seen)

theorem dedupAccum_first_seen (count : Nat) :
    ∀ (rs : List WebResult) (seen : List Str) (x : WebResult), x ∈ dedupAccum count rs seen →
      rs.find? (fun y => y.url == x.url) = some x
  | [], seen, x, hx => by simp [dedupAccum] at hx
  | r :: rs, seen, x, hx => by
    simp only [dedupAccum] at hx
    by_cases h1 : r.url ∈ seen
    · rw [if_pos h1] at hx
      have hrec := dedupAccum_first_seen count rs seen x hx
      have hnotin := (dedupAccum_urls count rs seen).1 x hx
      have hne : (r.url == x.url) = false := by
        simp only [beq_eq_false_iff_ne, ne_eq]
        intro he
        exact hnotin (he ▸ h1)
      simp only [List.find?_cons, hne]
      exact hrec
    · rw [if_neg h1] at hx
      by_cases h2 : count ≤ seen.length + 1
      · rw [if_pos h2] at hx
        simp only [List.mem_singleton] at hx
        subst hx
        simp [List.find?_cons]
      · rw [if_neg h2] at hx
        rcases List.mem_cons.mp hx with rfl | hx2
        · simp [List.find?_cons]
        · have hrec := dedupAccum_first_seen count rs (r.url :: seen) x hx2
          have hnotin := (dedupAccum_urls count rs (r.url :: seen)).1 x hx2
          have hne : (r.url == x.url) = false := by
            simp only [beq_eq_false_iff_ne, ne_eq]
            intro he
            exact hnotin (he ▸ List.mem_cons_self r.url seen)
          simp only [List.find?_cons, hne]
          exact hrec

theorem dedupAccum_presence (count : Nat) :
    ∀ (rs : List WebResult) (seen : List Str), seen.length + rs.length ≤ count →
      ∀ x ∈ rs, x.url ∈ seen ∨ ∃ y ∈ dedupAccum count rs seen, y.url = x.url
  | [], _, _, x, hx => absurd hx (List.not_mem_nil x)
  | r :: rs, seen, hle, x, hx => by
    simp only [dedupAccum]
    by_cases h1 : r.url ∈ seen
    · rw [if_pos h1]
      rcases List.mem_cons.mp hx with rfl | hx2
      · exact Or.inl h1
      · exact dedupAccum_presence count rs seen
          (by simp only [List.length_cons] at hle; omega) x hx2
    · rw [if_neg h1]
      by_cases h2 : count ≤ seen.length + 1
      · rw [if_pos h2]
        have hrs : rs = [] := by
          cases rs with
          | nil => rfl
          | cons a as =>
            simp only [List.length_cons] at hle
            omega
        subst hrs
        rcases List.mem_cons.mp hx with rfl | hempty
        · exact Or.inr ⟨x, List.mem_singleton.mpr rfl, rfl⟩
        · exact absurd hempty (List.not_mem_nil x)
      · rw [if_neg h2]
        rcases List.mem_cons.mp hx with rfl | hx2
        · exact Or.inr ⟨x, List.mem_cons_self x _, rfl⟩
        · have hrec := dedupAccum_presence count rs (r.url :: seen)
            (by simp only [List.length_cons] at hle ⊢; omega) x hx2
          rcases hrec with h | ⟨y, hy, hyurl⟩
          · rcases List.mem_cons.mp h with he | hseen
            · exact Or.inr ⟨r, List.mem_cons_self r _, he.symm⟩
            · exact Or.inl hseen
          · exact Or.inr ⟨y, List.mem_cons_of_mem r hy, hyurl⟩

/-! ### Lemmas about the cache store -/

theorem lookupRow_eraseKey (db : CacheDB) (k : Str) : lookupRow (eraseKey db k) k = none := by
  induction db with
  | nil => rfl
  | cons row rest ih =>
    simp only [eraseKey, List.filter_cons]
    cases hb : (row.cache_key == k) with
    | true =>
      simp only [hb, Bool.not_true]
      rw [if_neg (by simp)]
      simpa [eraseKey] using ih
    | false =>
      simp only [hb, Bool.not_false]
      rw [if_pos trivial]
      simp only [lookupRow, List.find?_cons, hb]
      simp only [eraseKey, lookupRow] at ih
      exact ih

theorem lookupRow_cons_self (k : Str) (res : List WebResult) (t : Int) (db : CacheDB) :
    lookupRow (⟨k, res, t⟩ :: db) k = some ⟨k, res, t⟩ := by
  simp [lookupRow, List.find?_cons]

theorem eraseKey_idem (db : CacheDB) (k : Str) : eraseKey (eraseKey db k) k = eraseKey db k := by
  simp [eraseKey, List.filter_filter]

/-! ### The exception-level pipeline never lets an error escape -/

theorem SearchCacheE_get_eq (backend : Str) (ttl : Int) (db : CacheDB) (fault : Bool)
    (now : Int) (q : Str) (c : Nat) (e r : Bool) :
    SearchCacheE.get backend ttl db fault now q c e r
      = Except.ok (SearchCache.get backend ttl db fault now q c e r) := by
  unfold SearchCacheE.get SearchCache.get
  by_cases hb : backend ≠ sqliteBackend
  · rw [if_pos hb, if_pos hb]
    rfl
  · rw [if_neg hb, if_neg hb]
    cases fault <;> rfl

theorem SearchCacheE_set_eq (backend : Str) (db : CacheDB) (fault : Bool) (now : Int)
    (q : Str) (c : Nat) (e r : Bool) (results : List WebResult) :
    SearchCacheE.set backend db fault now q c e r results
      = Except.ok (SearchCache.set backend db fault now q c e r results) := by
  unfold SearchCacheE.set SearchCache.set
  by_cases hb : backend ≠ sqliteBackend
  · rw [if_pos hb, if_pos hb]
    rfl
  · rw [if_neg hb, if_neg hb]
    cases fault <;> rfl

theorem fetchLoopE_eq (fetch : Str → Nat → Except Unit (List WebResult)) (count : Nat) :
    ∀ (vs : List Str) (acc : List WebResult),
      fetchLoopE fetch count vs acc = Except.ok (fetchLoop fetch count vs acc)
  | [], acc => rfl
  | v :: vs, acc => by
    simp only [fetchLoopE, fetchLoop]
    cases hf : fetch v count with
    | ok rs =>
      simp only [hf, tryCatch, tryCatchThe, MonadExceptOf.tryCatch, Except.tryCatch,
        bind, Except.bind, pure, Except.pure]
      by_cases hc : count ≤ (acc ++ rs).length
      · rw [if_pos hc, if_pos hc]
      · rw [if_neg hc, if_neg hc, fetchLoopE_eq fetch count vs (acc ++ rs)]
    | error e =>
      simp only [hf, tryCatch, tryCatchThe, MonadExceptOf.tryCatch, Except.tryCatch,
        bind, Except.bind, pure, Except.pure, fetchLoopE_eq fetch count vs acc]

theorem missPathE_eq (env : Env) (db1 : CacheDB) (query : Str) (count : Nat) :
    missPathE env db1 query count = Except.ok (missPath env db1 query count) := by
  unfold missPathE missPath
  dsimp only
  simp only [fetchLoopE_eq, SearchCacheE_set_eq, bind, Except.bind, pure, Except.pure]

theorem searchE_eq (env : Env) (db : CacheDB) (query : Str) (count : Nat) :
    searchE env db query count = Except.ok (BraveSearchProvider.search env db query count) := by
  unfold searchE BraveSearchProvider.search
  by_cases hk : env.apiKey = []
  · simp [hk, pure, Except.pure]
  · rw [if_neg hk, if_neg hk]
    simp only [SearchCacheE_get_eq, bind, Except.bind, pure, Except.pure]
    rcases hsg : SearchCache.get env.backend env.ttl db env.getFault env.now query count
        env.enrichment_enabled env.reranking_enabled with ⟨copt, db1⟩
    cases copt with
    | none =>
      dsimp only
      exact missPathE_eq env db1 query count
    | some cached =>
      dsimp only
      by_cases hce : cached.isEmpty
      · rw [if_pos hce, if_pos hce]
        exact missPathE_eq env db1 query count
      · rw [if_neg hce, if_neg hce]

/-! ### Pipeline helper lemmas -/

theorem cache_get_eq (ttl : Int) (db : CacheDB) (now : Int) (q : Str) (c : Nat) (e r : Bool) :
    SearchCache.get sqliteBackend ttl db false now q c e r
      = match lookupRow db (generate_cache_key q c e r) with
        | some row =>
          if now - row.created_at < ttl then (some row.results, db)
          else (none, eraseKey db (generate_cache_key q c e r))
        | none => (none, db) := by
  unfold SearchCache.get cacheGetRaw
  rw [if_neg (by simp)]
  rfl

theorem cache_set_eq (db : CacheDB) (now : Int) (q : Str) (c : Nat) (e r : Bool)
    (results : List WebResult) :
    SearchCache.set sqliteBackend db false now q c e r results
      = ⟨generate_cache_key q c e r, results, now⟩
          :: eraseKey db (generate_cache_key q c e r) := by
  unfold SearchCache.set cacheSetRaw
  rw [if_neg (by simp)]
  rfl

theorem fetchLoop_pos (fetch : Str → Nat → Except Unit (List WebResult)) (count : Nat)
    (v : Str) (vs : List Str) (acc : List WebResult) :
    1 ≤ (fetchLoop fetch count (v :: vs) acc).2 := by
  simp only [fetchLoop]
  cases fetch v count with
  | ok rs =>
    dsimp only
    by_cases hc : count ≤ (acc ++ rs).length
    · rw [if_pos hc]
    · rw [if_neg hc]
      exact Nat.le_add_left 1 _
  | error e => exact Nat.le_add_left 1 _

theorem missPath_invariants (env : Env) (db1 : CacheDB) (q : Str) (count : Nat)
    (hcount : 1 ≤ count) (hbk : env.backend = sqliteBackend) (hsf : env.setFault = false) :
    (missPath env db1 q count).results.Pairwise (fun a b => a.url ≠ b.url) ∧
      (missPath env db1 q count).results.length ≤ count ∧
      (lookupRow (missPath env db1 q count).db
          (generate_cache_key q count env.enrichment_enabled env.reranking_enabled)).map
        CacheRow.results = some (missPath env db1 q count).results := by
  unfold missPath
  dsimp only
  set unique := dedupAccum count
    (fetchLoop env.fetch count (enrich_query env.enrichment_enabled q) []).1 [] with hU
  have hlen : unique.length ≤ count := by
    have := dedupAccum_length count
      (fetchLoop env.fetch count (enrich_query env.enrichment_enabled q) []).1 []
      (by simpa using hcount)
    simpa [← hU] using this
  have hpw : unique.Pairwise (fun a b => a.url ≠ b.url) :=
    (dedupAccum_urls count
      (fetchLoop env.fetch count (enrich_query env.enrichment_enabled q) []).1 []).2
  have hsymm : Symmetric (fun a b : WebResult => a.url ≠ b.url) := fun _ _ h => Ne.symm h
  set F := if 1 < unique.length then rerank_results env.reranking_enabled q unique else unique
    with hF
  have hFperm : F.Perm unique := by
    rw [hF]
    by_cases h1 : 1 < unique.length
    · rw [if_pos h1]
      exact rerank_perm env.reranking_enabled q unique
    · rw [if_neg h1]
  have hFlen : F.length ≤ count := hFperm.length_eq ▸ hlen
  have hFpw : F.Pairwise (fun a b => a.url ≠ b.url) := (hFperm.pairwise_iff @hsymm).mpr hpw
  have htake : F.take count = F := List.take_of_length_le hFlen
  rw [hbk, hsf, cache_set_eq, htake]
  exact ⟨hFpw, hFlen, by rw [lookupRow_cons_self]; rfl⟩

/-! ### Claim theorems -/

/-- C1 (code evaluation at the failing input): with default configuration and
a provider whose every call times out, `search` on a single-variant query
makes exactly one provider attempt and returns `[]`, although
`RETRY_ATTEMPTS + 1 = 3` attempts (with backoff sleeps between them) are
claimed; `should_retry` classifies a 404 as non-retryable but `search` never
consults it or sleeps — the retry machinery is dead code. -/
theorem C1_no_retry_code_eval :
    (BraveSearchProvider.search timeoutEnv [] "hello".data 10).results = [] ∧
      (BraveSearchProvider.search timeoutEnv [] "hello".data 10).providerCalls = 1 ∧
      RETRY_ATTEMPTS + 1 = 3 ∧
      should_retry (some 404) = false ∧ should_retry (some 503) = true := by
  refine ⟨by decide, by decide, by decide, by decide, by decide⟩

/-- C2: once credentials are configured, a `search` call never propagates an
exception: the exception-level pipeline `searchE`, whose primitives (sqlite
reads and writes, provider calls) can all throw, always returns `Except.ok`
of the pure outcome, whose worst-case result field is the empty list. -/
theorem C2_search_never_raises (env : Env) (db : CacheDB) (query : Str) (count : Nat)
    (_h : env.apiKey ≠ []) :
    searchE env db query count = Except.ok (BraveSearchProvider.search env db query count) :=
  searchE_eq env db query count

/-- Witness for C2 at a concrete environment whose provider always times out. -/
theorem C2_search_never_raises_witness :
    searchE timeoutEnv [] "hello".data 10
      = Except.ok (BraveSearchProvider.search timeoutEnv [] "hello".data 10) :=
  C2_search_never_raises timeoutEnv [] "hello".data 10 (by decide)

/-- C3: `calculate_score` equals the claimed formula (2.0 per query term in
the title, 1.0 per query term in title-plus-description, 3.0 phrase bonus,
0.5 short-description penalty — all doubled to stay integral), the rerank
output is sorted descending by that score, and on the spec fixture the `u2`
result is placed first. -/
theorem C3_rerank_scoring :
    (∀ (q : Str) (res : WebResult), calculate_score q res = spec_score q res) ∧
      (∀ (q : Str) (rs : List WebResult), List.Sorted (scoreGe q) (rerank_results true q rs)) ∧
      rerank_results true "test".data [gRes, tRes] = [tRes, gRes] :=
  ⟨calculate_score_eq_spec, rerank_sorted, by decide⟩

/-- C4: a cache entry whose age `now - created_at` is at least the TTL is
treated as absent by `get` and deleted, so a second `get` on the same key is
also absent; an entry younger than the TTL is returned. -/
theorem C4_cache_expiry (ttl now now₂ : Int) (db : CacheDB) (q : Str) (c : Nat) (e r : Bool)
    (row : CacheRow)
    (hrow : lookupRow db (generate_cache_key q c e r) = some row) :
    (ttl ≤ now - row.created_at →
      (SearchCache.get sqliteBackend ttl db false now q c e r).1 = none ∧
        (SearchCache.get sqliteBackend ttl
            (SearchCache.get sqliteBackend ttl db false now q c e r).2 false now₂ q c e r).1
          = none) ∧
      (now - row.created_at < ttl →
        (SearchCache.get sqliteBackend ttl db false now q c e r).1 = some row.results) := by
  constructor
  · intro hstale
    have h1 : SearchCache.get sqliteBackend ttl db false now q c e r
        = (none, eraseKey db (generate_cache_key q c e r)) := by
      rw [cache_get_eq, hrow]
      dsimp only
      rw [if_neg (not_lt.mpr hstale)]
    rw [h1]
    refine ⟨rfl, ?_⟩
    rw [show (none (α := List WebResult), eraseKey db (generate_cache_key q c e r)).2
        = eraseKey db (generate_cache_key q c e r) from rfl]
    rw [cache_get_eq, lookupRow_eraseKey]
  · intro hfresh
    rw [cache_get_eq, hrow]
    dsimp only
    rw [if_pos hfresh]

/-- Witness for C4: a one-row store whose entry is exactly TTL old is absent
on read, and a fresh entry is returned. -/
theorem C4_cache_expiry_witness :
    (SearchCache.get sqliteBackend 600
        [⟨generate_cache_key "q".data 10 true true, [gRes], 0⟩] false 600 "q".data
        10 true true).1 = none :=
  ((C4_cache_expiry 600 600 601 [⟨generate_cache_key "q".data 10 true true, [gRes], 0⟩]
    "q".data 10 true true ⟨generate_cache_key "q".data 10 true true, [gRes], 0⟩
    (by decide)).1 (by decide)).1

/-- C5 counterexample: the claim fails as stated.  With limit 0 the loop
still emits one result (the cap test runs only after an append), so the
output exceeds the limit; and with limit 1 two input lists sharing the url
`u2` contribute zero (not exactly one) output entries for that url, because
the cap cuts the scan before that url's first occurrence. -/
theorem C5_aggregate_counterexample :
    (aggregate [[gRes]] 0).length = 1 ∧
      aggregate [[gRes], [tRes], [tRes]] 1 = [gRes] ∧
      (aggregate [[gRes], [tRes], [tRes]] 1).filter (fun x => x.url == tRes.url) = [] := by
  refine ⟨by decide, by decide, by decide⟩

/-- C5 (amended): for every limit ≥ 1, aggregation concatenates the lists in
order, keeps at most one entry per url — the first-encountered one — in
first-seen order (a sublist of the concatenation), returns at most `limit`
items, and contributes exactly one entry per url occurring in the input
whenever the concatenated input has at most `limit` results. -/
theorem C5_aggregate_amended (lists : List (List WebResult)) (limit : Nat) (h : 1 ≤ limit) :
    (aggregate lists limit).length ≤ limit ∧
      (aggregate lists limit).Pairwise (fun a b => a.url ≠ b.url) ∧
      List.Sublist (aggregate lists limit) lists.flatten ∧
      (∀ x ∈ aggregate lists limit, lists.flatten.find? (fun y => y.url == x.url) = some x) ∧
      (lists.flatten.length ≤ limit →
        ∀ x ∈ lists.flatten, ∃ y ∈ aggregate lists limit, y.url = x.url) := by
  refine ⟨?_, (dedupAccum_urls limit lists.flatten []).2, dedupAccum_sublist limit lists.flatten [],
    fun x hx => dedupAccum_first_seen limit lists.flatten [] x hx, ?_⟩
  · have hl := dedupAccum_length limit lists.flatten [] (by simpa using h)
    simpa [aggregate] using hl
  · intro hlen x hx
    rcases dedupAccum_presence limit lists.flatten [] (by simpa using hlen) x hx with h2 | h2
    · exact absurd h2 (List.not_mem_nil _)
    · exact h2

/-- Witness for the amended C5 on a concrete pair of overlapping lists. -/
theorem C5_aggregate_amended_witness :
    (aggregate [[gRes, tRes], [tRes]] 5).length ≤ 5 :=
  (C5_aggregate_amended [[gRes, tRes], [tRes]] 5 (by decide)).1

/-- C6: for every query, `enrich_query` returns a non-empty list whose first
element is the query unmodified, of length at most 3, with no duplicate
entries under case-insensitive comparison (no two entries agree after
lowering); with enrichment disabled it returns exactly `[query]`. -/
theorem C6_enrich_query_contract (en : Bool) (q : Str) :
    enrich_query en q ≠ [] ∧
      (enrich_query en q).head? = some q ∧
      (enrich_query en q).length ≤ 3 ∧
      (enrich_query en q).Pairwise (fun a b => lower a ≠ lower b) ∧
      (en = false → enrich_query en q = [q]) := by
  obtain ⟨t, ht⟩ := enrich_cons en q
  refine ⟨by simp [ht], by simp [ht], ?_, enrich_pairwise en q, ?_⟩
  · unfold enrich_query
    by_cases hen : en = false
    · rw [if_pos hen]
      simp
    · rw [if_neg hen]
      exact List.length_take_le 3 _
  · intro hen
    unfold enrich_query
    rw [if_pos hen]

/-- Witness for C6 with enrichment disabled at a concrete query. -/
theorem C6_enrich_query_contract_witness :
    enrich_query false "fast car".data = ["fast car".data] :=
  (C6_enrich_query_contract false "fast car".data).2.2.2.2 rfl

/-- C7: reranking is a stable reordering: the output is a permutation of the
input, results of any given score keep their pre-sort relative order (the
filter to each score class is unchanged), and reranking is the identity when
disabled or when the list has at most one element. -/
theorem C7_rerank_stable (en : Bool) (q : Str) (rs : List WebResult) :
    (rerank_results en q rs).Perm rs ∧
      (∀ s : Int, (rerank_results en q rs).filter (fun y => decide (calculate_score q y = s))
        = rs.filter (fun y => decide (calculate_score q y = s))) ∧
      (en = false → rerank_results en q rs = rs) ∧
      (rs.length ≤ 1 → rerank_results en q rs = rs) := by
  refine ⟨rerank_perm en q rs, fun s => rerank_filter_score en q rs s, ?_, ?_⟩
  · intro hen
    unfold rerank_results
    rw [if_pos (Or.inl hen)]
  · intro hlen
    unfold rerank_results
    rw [if_pos (Or.inr hlen)]

/-- Witness for C7 with reranking disabled at a concrete input. -/
theorem C7_rerank_stable_witness :
    rerank_results false "test".data [gRes, tRes] = [gRes, tRes] :=
  (C7_rerank_stable false "test".data [gRes, tRes]).2.2.1 rfl

/-- C8: cache round-trip: `set` followed by `get` with the same query, count
and flags, before the TTL elapses, returns exactly the stored list. -/
theorem C8_cache_round_trip (ttl : Int) (db : CacheDB) (q : Str) (c : Nat) (e r : Bool)
    (results : List WebResult) (t₁ t₂ : Int) (h : t₂ - t₁ < ttl) :
    (SearchCache.get sqliteBackend ttl
        (SearchCache.set sqliteBackend db false t₁ q c e r results) false t₂ q c e r).1
      = some results := by
  rw [cache_set_eq, cache_get_eq, lookupRow_cons_self]
  dsimp only
  rw [if_pos h]

/-- Witness for C8 at a concrete store, query and pair of timestamps. -/
theorem C8_cache_round_trip_witness :
    (SearchCache.get sqliteBackend 600
        (SearchCache.set sqliteBackend [] false 5 "Q ".data 10 true true [gRes]) false 7
        "Q ".data 10 true true).1 = some [gRes] :=
  C8_cache_round_trip 600 [] "Q ".data 10 true true [gRes] 5 7 (by decide)

/-- C9: a fresh cached empty list is not served as a hit: `search` behaves
exactly as if the entry were absent — it runs the full miss path (at least
one provider call, not the cache-hit branch, and the key is re-written). -/
theorem C9_empty_cache_entry_not_hit (env : Env) (db : CacheDB) (q : Str) (count : Nat)
    (row : CacheRow)
    (hkey : env.apiKey ≠ [])
    (hbk : env.backend = sqliteBackend)
    (hgf : env.getFault = false)
    (hsf : env.setFault = false)
    (hrow : lookupRow db
      (generate_cache_key q count env.enrichment_enabled env.reranking_enabled) = some row)
    (hempty : row.results = [])
    (hfresh : env.now - row.created_at < env.ttl) :
    BraveSearchProvider.search env db q count
        = BraveSearchProvider.search env
          (eraseKey db (generate_cache_key q count env.enrichment_enabled
            env.reranking_enabled)) q count ∧
      (BraveSearchProvider.search env db q count).fromCache = false ∧
      1 ≤ (BraveSearchProvider.search env db q count).providerCalls := by
  have hget1 : SearchCache.get env.backend env.ttl db env.getFault env.now q count
      env.enrichment_enabled env.reranking_enabled = (some [], db) := by
    rw [hbk, hgf, cache_get_eq, hrow]
    dsimp only
    rw [if_pos hfresh, hempty]
  have hget2 : SearchCache.get env.backend env.ttl
      (eraseKey db (generate_cache_key q count env.enrichment_enabled env.reranking_enabled))
      env.getFault env.now q count env.enrichment_enabled env.reranking_enabled
      = (none, eraseKey db
          (generate_cache_key q count env.enrichment_enabled env.reranking_enabled)) := by
    rw [hbk, hgf, cache_get_eq, lookupRow_eraseKey]
  have hsearch1 : BraveSearchProvider.search env db q count = missPath env db q count := by
    unfold BraveSearchProvider.search
    rw [if_neg hkey, hget1]
    rfl
  have hsearch2 : BraveSearchProvider.search env
      (eraseKey db (generate_cache_key q count env.enrichment_enabled env.reranking_enabled))
      q count
      = missPath env
        (eraseKey db (generate_cache_key q count env.enrichment_enabled env.reranking_enabled))
        q count := by
    unfold BraveSearchProvider.search
    rw [if_neg hkey, hget2]
  have hmiss : missPath env db q count
      = missPath env
        (eraseKey db (generate_cache_key q count env.enrichment_enabled env.reranking_enabled))
        q count := by
    unfold missPath
    dsimp only
    rw [hbk, hsf, cache_set_eq, cache_set_eq, eraseKey_idem]
  refine ⟨by rw [hsearch1, hsearch2, hmiss], by rw [hsearch1]; rfl, ?_⟩
  rw [hsearch1]
  unfold missPath
  obtain ⟨t, ht⟩ := enrich_cons env.enrichment_enabled q
  dsimp only
  rw [ht]
  exact fetchLoop_pos env.fetch count q t []

/-- Witness for C9: a store holding a fresh empty list for the query's key. -/
theorem C9_empty_cache_entry_not_hit_witness :
    (BraveSearchProvider.search timeoutEnv
        [⟨generate_cache_key "hello".data 10 true true, ([] : List WebResult), 0⟩]
        "hello".data 10).fromCache = false :=
  (C9_empty_cache_entry_not_hit timeoutEnv
    [⟨generate_cache_key "hello".data 10 true true, ([] : List WebResult), 0⟩]
    "hello".data 10 ⟨generate_cache_key "hello".data 10 true true, [], 0⟩
    (by decide) rfl rfl rfl (by decide) rfl (by decide)).2.1

/-- C10: a cache-miss run with count ≥ 1 returns pairwise-distinct urls, at
most `count` results, and the returned list is exactly the list written to
the cache under the query's key. -/
theorem C10_miss_run_invariants (env : Env) (db : CacheDB) (q : Str) (count : Nat)
    (hkey : env.apiKey ≠ []) (hcount : 1 ≤ count) (hbk : env.backend = sqliteBackend)
    (hsf : env.setFault = false)
    (hmiss : (SearchCache.get env.backend env.ttl db env.getFault env.now q count
      env.enrichment_enabled env.reranking_enabled).1 = none) :
    (BraveSearchProvider.search env db q count).results.Pairwise (fun a b => a.url ≠ b.url) ∧
      (BraveSearchProvider.search env db q count).results.length ≤ count ∧
      (lookupRow (BraveSearchProvider.search env db q count).db
          (generate_cache_key q count env.enrichment_enabled env.reranking_enabled)).map
        CacheRow.results = some (BraveSearchProvider.search env db q count).results := by
  have hget : SearchCache.get env.backend env.ttl db env.getFault env.now q count
      env.enrichment_enabled env.reranking_enabled
      = (none, (SearchCache.get env.backend env.ttl db env.getFault env.now q count
          env.enrichment_enabled env.reranking_enabled).2) :=
    Prod.ext hmiss rfl
  have hsearch : BraveSearchProvider.search env db q count
      = missPath env (SearchCache.get env.backend env.ttl db env.getFault env.now q count
          env.enrichment_enabled env.reranking_enabled).2 q count := by
    unfold BraveSearchProvider.search
    rw [if_neg hkey, hget]
  rw [hsearch]
  exact missPath_invariants env _ q count hcount hbk hsf

/-- Witness for C10 on an empty store with a timing-out provider. -/
theorem C10_miss_run_invariants_witness :
    (BraveSearchProvider.search timeoutEnv [] "hello".data 10).results.length ≤ 10 :=
  (C10_miss_run_invariants timeoutEnv [] "hello".data 10 (by decide) (by decide) rfl rfl
    (by decide)).2.1

end SearchBridge
